import Mathlib

/-!
Verification of the request-shaping utilities of `nova/api/openstack/common.py`:
offset- and marker-based pagination, power-state/status mapping, href parsing,
and the metadata XML codec, shallowly embedded in Lean.

Python integers are modelled as `Int`/`Nat` (they are unbounded), Python lists
as `List`, Python strings as `String`/`List Char`, raised exceptions as
`Except String`.
-/

set_option linter.unusedVariables false

namespace Nova

instance {ε α : Type} [DecidableEq ε] [DecidableEq α] : DecidableEq (Except ε α) := fun
  | .error a, .error b =>
    if h : a = b then .isTrue (by rw [h]) else .isFalse (by intro hc; cases hc; exact h rfl)
  | .error _, .ok _ => .isFalse (by intro h; cases h)
  | .ok _, .error _ => .isFalse (by intro h; cases h)
  | .ok a, .ok b =>
    if h : a = b then .isTrue (by rw [h]) else .isFalse (by intro hc; cases hc; exact h rfl)

/-- Model of a Python slice `l[a:b]` for non-negative bounds `a`, `b`:
the elements at indices `a ≤ i < b`, clipped to the list bounds. -/
def pySlice (l : List α) (a b : Nat) : List α := (l.take b).drop a

/-- Model of Python `s.split(sep)` for a one-character separator: split at every
occurrence, preserving empty pieces; the result is always nonempty and
`''.split(sep) == ['']`. -/
def pySplit (c : Char) : List Char → List (List Char)
  | [] => [[]]
  | x :: xs =>
    if x = c then [] :: pySplit c xs
    else
      match pySplit c xs with
      | [] => [[x]]
      | h :: t => (x :: h) :: t

/-- Leading and trailing whitespace removal, as Python `int(str)` performs
before parsing. -/
def pyStrip (l : List Char) : List Char :=
  ((l.dropWhile Char.isWhitespace).reverse.dropWhile Char.isWhitespace).reverse

/-- Value of a digit run: `none` unless the list is a nonempty run of ASCII
decimal digits. -/
def digitsVal (ds : List Char) : Option Nat :=
  if ds ≠ [] ∧ ds.all Char.isDigit then
    some (ds.foldl (fun acc c => acc * 10 + (c.toNat - 48)) 0)
  else none

/-- Model of Python 2 `int(s)` on a string: strip surrounding whitespace, allow
one optional sign, then require a nonempty run of decimal digits consuming the
rest; `none` models the `ValueError`. -/
def pyIntChars (l : List Char) : Option Int :=
  match pyStrip l with
  | '-' :: ds => (digitsVal ds).map (fun n => -(n : Int))
  | '+' :: ds => (digitsVal ds).map (fun n => (n : Int))
  | ds => (digitsVal ds).map (fun n => (n : Int))

/-- Model of Python 2 `int(s)` on a `String`. -/
def pyInt (s : String) : Option Int := pyIntChars s.data

/-- An element of a paginated collection: the `id` field that the marker scan of
`limited_by_marker` reads, together with the rest of the item. -/
structure Tagged (α : Type) where
  id : Int
  val : α
  deriving DecidableEq, Repr

/-- The GET query parameters read by `get_pagination_params`, as the raw
optional strings supplied by the transport layer. -/
structure Request where
  marker : Option String := none
  limit : Option String := none

/-- One iteration of the validation loop in `get_pagination_params`: an absent
parameter is skipped, a present one must parse as an integer
(`"<name> param must be an integer"`) and be non-negative
(`"<name> param must be positive"`). -/
def paginationParam (name : String) (raw : Option String) : Except String (Option Int) :=
  match raw with
  | none => Except.ok none
  | some s =>
    match pyInt s with
    | none => Except.error (name ++ " param must be an integer")
    | some n =>
      if n < 0 then Except.error (name ++ " param must be positive")
      else Except.ok (some n)

/-- Function `get_pagination_params`: validate the `marker` parameter, then the `limit`
parameter, returning the parsed values of those that are present. -/
def get_pagination_params (req : Request) : Except String (Option Int × Option Int) :=
  match paginationParam "marker" req.marker with
  | Except.error e => Except.error e
  | Except.ok m =>
    match paginationParam "limit" req.limit with
    | Except.error e => Except.error e
    | Except.ok l => Except.ok (m, l)

/-- Core of `limited` after query-parameter validation: `offset` and `limit` are
the already-validated non-negative integers (`limit` defaults to `max_limit`
when the parameter is absent).  The code computes
`limit = min(max_limit, limit or max_limit)` — Python `or` treats `0` as falsy —
and returns `items[offset:offset + limit]`. -/
def limited (items : List α) (offset limit maxLimit : Nat) : List α :=
  let l := min maxLimit (if limit = 0 then maxLimit else limit)
  pySlice items offset (offset + l)

/-- Python truthiness of the parsed optional `marker` value: both an absent
marker (`None`) and a marker equal to `0` are falsy in `if marker:`. -/
def markerTruthy : Option Int → Bool
  | none => false
  | some m => m != 0

/-- The scan loop of `limited_by_marker`: the position just after the first item
whose `id` equals the marker, or `none` when no item matches (the code's
`start_index = -1` case). -/
def markerScan (items : List (Tagged α)) (m : Int) : Option Nat :=
  match items with
  | [] => none
  | it :: rest => if it.id = m then some 1 else (markerScan rest m).map (· + 1)

/-- Function `limited_by_marker`: validate the query parameters, default `limit` to
`max_limit`, clamp it with `limit = min(max_limit, limit)`, then — only when the
parsed marker is truthy — scan for the first item whose `id` equals the marker
and start just after it, raising `marker [<marker>] not found` when the scan
fails; finally return `items[start_index:start_index + limit]`. -/
def limited_by_marker (items : List (Tagged α)) (req : Request) (maxLimit : Nat) :
    Except String (List (Tagged α)) :=
  match get_pagination_params req with
  | Except.error e => Except.error e
  | Except.ok (markerOpt, limitOpt) =>
    let lim : Int := min (maxLimit : Int) (limitOpt.getD (maxLimit : Int))
    if markerTruthy markerOpt then
      match markerScan items (markerOpt.getD 0) with
      | none =>
        Except.error ("marker [" ++ toString (markerOpt.getD 0) ++ "] not found")
      | some s => Except.ok (pySlice items s (s + lim.toNat))
    else
      Except.ok (pySlice items 0 (0 + lim.toNat))

/-! ### Basic slicing lemmas -/

theorem pySlice_add (l : List α) (a n : Nat) : pySlice l a (a + n) = (l.drop a).take n := by
  simp [pySlice, List.drop_take]

theorem pySlice_eq_nil_of_le (l : List α) (a b : Nat) (h : l.length ≤ a) :
    pySlice l a b = [] := by
  apply List.drop_eq_nil_of_le
  simp [List.length_take]
  omega

/-! ### Validation lemmas for `get_pagination_params` -/

theorem paginationParam_ok_nonneg {name : String} {raw : Option String} {n : Int}
    (h : paginationParam name raw = Except.ok (some n)) : 0 ≤ n := by
  cases raw with
  | none => simp [paginationParam] at h
  | some s =>
    simp only [paginationParam] at h
    cases hp : pyInt s with
    | none => rw [hp] at h; simp at h
    | some m =>
      rw [hp] at h
      by_cases hm : m < 0
      · simp [hm] at h
      · simp [hm] at h
        omega

theorem get_pagination_params_limit_nonneg {req : Request} {marker : Option Int} {l : Int}
    (h : get_pagination_params req = Except.ok (marker, some l)) : 0 ≤ l := by
  unfold get_pagination_params at h
  cases hm : paginationParam "marker" req.marker with
  | error e => rw [hm] at h; simp at h
  | ok mv =>
    rw [hm] at h
    cases hl : paginationParam "limit" req.limit with
    | error e => rw [hl] at h; simp at h
    | ok lv =>
      rw [hl] at h
      simp at h
      obtain ⟨-, h2⟩ := h
      rw [h2] at hl
      exact paginationParam_ok_nonneg hl

/-! ### Lemmas for the marker scan -/

theorem markerScan_eq_none_iff (items : List (Tagged α)) (m : Int) :
    markerScan items m = none ↔ ∀ it ∈ items, it.id ≠ m := by
  induction items with
  | nil => simp [markerScan]
  | cons x rest ih =>
    by_cases hx : x.id = m
    · simp [markerScan, hx]
    · simp [markerScan, hx, ih]

theorem markerScan_eq_some_of (items : List (Tagged α)) (m : Int) (i : Nat) (it : Tagged α)
    (hget : items[i]? = some it) (hid : it.id = m)
    (hbefore : ∀ j it', j < i → items[j]? = some it' → it'.id ≠ m) :
    markerScan items m = some (i + 1) := by
  induction items generalizing i with
  | nil => simp at hget
  | cons x rest ih =>
    cases i with
    | zero =>
      simp at hget
      subst hget
      simp [markerScan, hid]
    | succ n =>
      have hx : x.id ≠ m := by
        have := hbefore 0 x (Nat.succ_pos n)
        simp at this
        exact this
      simp at hget
      have hrest : markerScan rest m = some (n + 1) := by
        apply ih n hget
        intro j it' hj hget'
        exact hbefore (j + 1) it' (by omega) (by simpa using hget')
      simp [markerScan, hx, hrest]

/-! ### C2: `limited` -/

/-- C2: for every sliceable list, non-negative offset and positive `maxLimit`,
`limited` with `limit = 0` returns the window `items[offset : offset+maxLimit]`;
in general the effective limit is `min maxLimit (limit if limit ≠ 0 else
maxLimit)`, and the window is clipped to the sequence bounds, so slicing past
the end yields a shorter or empty result, never an error. -/
theorem limited_spec (items : List α) (offset limit maxLimit : Nat) (hmax : 0 < maxLimit) :
    limited items offset 0 maxLimit = (items.drop offset).take maxLimit ∧
    limited items offset limit maxLimit
      = (items.drop offset).take (min maxLimit (if limit = 0 then maxLimit else limit)) ∧
    (items.length ≤ offset → limited items offset limit maxLimit = []) ∧
    (limited items offset limit maxLimit).length
      ≤ min maxLimit (if limit = 0 then maxLimit else limit) := by
  refine ⟨?_, ?_, ?_, ?_⟩
  · simp [limited, pySlice_add]
  · simp only [limited, pySlice_add]
  · intro h
    simp only [limited]
    exact pySlice_eq_nil_of_le _ _ _ h
  · simp only [limited, pySlice_add]
    calc ((items.drop offset).take (min maxLimit (if limit = 0 then maxLimit else limit))).length
        ≤ min maxLimit (if limit = 0 then maxLimit else limit) := List.length_take_le _ _

theorem limited_spec_witness :
    limited [10, 20, 30, 40] 1 0 2 = ([10, 20, 30, 40].drop 1).take 2 ∧
    limited [10, 20, 30, 40] 1 0 2
      = ([10, 20, 30, 40].drop 1).take (min 2 (if 0 = 0 then 2 else 0)) ∧
    ([10, 20, 30, 40].length ≤ 1 → limited [10, 20, 30, 40] 1 0 2 = []) ∧
    (limited [10, 20, 30, 40] 1 0 2).length ≤ min 2 (if 0 = 0 then 2 else 0) :=
  limited_spec [10, 20, 30, 40] 1 0 2 (by decide)

/-! ### C3: `limited_by_marker` limit policy -/

/-- C3: for every list of items and every valid non-negative limit,
`limited_by_marker` computes its effective limit as `min maxLimit limit` with no
zero-means-max special case, so a limit of exactly 0 yields an empty result
whenever a result is produced — a policy distinct from `limited`. -/
theorem limited_by_marker_min_limit (items : List (Tagged α)) (req : Request)
    (maxLimit : Nat) (marker : Option Int) (l : Int)
    (h : get_pagination_params req = Except.ok (marker, some l)) :
    (∀ r, limited_by_marker items req maxLimit = Except.ok r →
        ∃ s, r = pySlice items s (s + min maxLimit l.toNat)) ∧
    (l = 0 → ∀ r, limited_by_marker items req maxLimit = Except.ok r → r = []) ∧
    (marker = none →
        limited_by_marker items req maxLimit
          = Except.ok (pySlice items 0 (min maxLimit l.toNat))) := by
  have hl : 0 ≤ l := get_pagination_params_limit_nonneg h
  have htn : (min (maxLimit : Int) ((some l).getD (maxLimit : Int))).toNat
      = min maxLimit l.toNat := by
    simp only [Option.getD]
    omega
  have hok : ∀ r, limited_by_marker items req maxLimit = Except.ok r →
      ∃ s, r = pySlice items s (s + min maxLimit l.toNat) := by
    intro r hr
    simp only [limited_by_marker, h, htn] at hr
    by_cases hmt : markerTruthy marker
    · rw [if_pos hmt] at hr
      cases hs : markerScan items (marker.getD 0) with
      | none => rw [hs] at hr; simp at hr
      | some s =>
        rw [hs] at hr
        simp at hr
        exact ⟨s, hr.symm⟩
    · rw [if_neg hmt] at hr
      simp at hr
      refine ⟨0, ?_⟩
      rw [← hr]
      simp
  refine ⟨hok, ?_, ?_⟩
  · intro hzero r hr
    obtain ⟨s, hs⟩ := hok r hr
    rw [hs, hzero]
    simp [pySlice, List.drop_take]
  · intro hnone
    subst hnone
    simp only [limited_by_marker, h, htn]
    simp [markerTruthy]

theorem limited_by_marker_min_limit_witness :
    (∀ r, limited_by_marker [(⟨7, 0⟩ : Tagged Nat), ⟨9, 1⟩] ⟨none, some "0"⟩ 5 = Except.ok r →
        ∃ s, r = pySlice [(⟨7, 0⟩ : Tagged Nat), ⟨9, 1⟩] s (s + min 5 (0 : Int).toNat)) ∧
    ((0 : Int) = 0 → ∀ r,
        limited_by_marker [(⟨7, 0⟩ : Tagged Nat), ⟨9, 1⟩] ⟨none, some "0"⟩ 5 = Except.ok r →
        r = []) ∧
    ((none : Option Int) = none →
        limited_by_marker [(⟨7, 0⟩ : Tagged Nat), ⟨9, 1⟩] ⟨none, some "0"⟩ 5
          = Except.ok (pySlice [(⟨7, 0⟩ : Tagged Nat), ⟨9, 1⟩] 0 (min 5 (0 : Int).toNat))) :=
  limited_by_marker_min_limit [(⟨7, 0⟩ : Tagged Nat), ⟨9, 1⟩] ⟨none, some "0"⟩ 5 none 0
    (by decide)

/-! ### C4: `limited_by_marker` marker semantics -/

/-- C4 counterexample: a present marker whose parsed value is 0 does not raise
`marker [0] not found` even though no item has id 0 — the empty list is
returned, refuting the claim for marker value 0. -/
theorem limited_by_marker_present_marker_cex :
    limited_by_marker ([] : List (Tagged Unit)) ⟨some "0", none⟩ 5 = Except.ok [] := by
  decide

/-- C4 (amended): for every present marker whose parsed value is nonzero: if
some item's `id` equals the marker, the returned window starts immediately
after the first such item (first-match semantics under duplicate ids), so when
that first match is the last item an empty sequence is returned without error;
if no item's `id` equals the marker the call fails with
`marker [<marker>] not found`. -/
theorem limited_by_marker_marker_semantics (items : List (Tagged α)) (req : Request)
    (maxLimit : Nat) (m : Int) (limitOpt : Option Int)
    (h : get_pagination_params req = Except.ok (some m, limitOpt)) (hm : m ≠ 0) :
    (∀ i it, items[i]? = some it → it.id = m →
        (∀ j it', j < i → items[j]? = some it' → it'.id ≠ m) →
        limited_by_marker items req maxLimit
          = Except.ok (pySlice items (i + 1)
              ((i + 1) + (min (maxLimit : Int) (limitOpt.getD (maxLimit : Int))).toNat))) ∧
    ((∀ it ∈ items, it.id ≠ m) →
        limited_by_marker items req maxLimit
          = Except.error ("marker [" ++ toString m ++ "] not found")) ∧
    (∀ i it, items[i]? = some it → it.id = m → i + 1 = items.length →
        (∀ j it', j < i → items[j]? = some it' → it'.id ≠ m) →
        limited_by_marker items req maxLimit = Except.ok []) := by
  have hmt : markerTruthy (some m) = true := by
    simp [markerTruthy, hm]
  have hfound : ∀ i it, items[i]? = some it → it.id = m →
      (∀ j it', j < i → items[j]? = some it' → it'.id ≠ m) →
      limited_by_marker items req maxLimit
        = Except.ok (pySlice items (i + 1)
            ((i + 1) + (min (maxLimit : Int) (limitOpt.getD (maxLimit : Int))).toNat)) := by
    intro i it hget hid hbefore
    have hscan : markerScan items m = some (i + 1) :=
      markerScan_eq_some_of items m i it hget hid hbefore
    simp only [limited_by_marker, h, hmt, if_true, Option.getD, hscan]
  refine ⟨hfound, ?_, ?_⟩
  · intro hnone
    have hscan : markerScan items m = none := (markerScan_eq_none_iff items m).mpr hnone
    simp only [limited_by_marker, h, hmt, if_true, Option.getD, hscan]
  · intro i it hget hid hlast hbefore
    rw [hfound i it hget hid hbefore]
    congr 1
    exact pySlice_eq_nil_of_le _ _ _ (by omega)

theorem limited_by_marker_marker_semantics_witness :
    limited_by_marker [(⟨7, 0⟩ : Tagged Nat), ⟨9, 1⟩] ⟨some "7", none⟩ 5
      = Except.ok [⟨9, 1⟩] := by
  have hsem := limited_by_marker_marker_semantics [(⟨7, 0⟩ : Tagged Nat), ⟨9, 1⟩]
    ⟨some "7", none⟩ 5 7 none (by decide) (by decide)
  have h1 := hsem.1 0 ⟨7, 0⟩ (by decide) (by decide) (by intro j it' hj; omega)
  rw [h1]
  decide

/-! ### C10: a parsed marker of 0 is treated as absent -/

/-- C10: when `limited_by_marker` receives a marker query parameter whose parsed
integer value is 0, the marker is treated exactly as if it were absent — the
window starts at index 0 and `marker not found` is never raised — because the
marker-search branch is guarded by the truthiness of the parsed value. -/
theorem limited_by_marker_zero_marker_ignored (items : List (Tagged α))
    (limitParam : Option String) (maxLimit : Nat) :
    limited_by_marker items ⟨some "0", limitParam⟩ maxLimit
      = limited_by_marker items ⟨none, limitParam⟩ maxLimit ∧
    limited_by_marker items ⟨some "0", none⟩ maxLimit = Except.ok (items.take maxLimit) := by
  constructor
  · have hm0 : paginationParam "marker" (some "0") = Except.ok (some 0) := by decide
    have hmn : paginationParam "marker" none = Except.ok none := rfl
    simp only [limited_by_marker, get_pagination_params, hm0, hmn]
    cases hl : paginationParam "limit" limitParam with
    | error e => rfl
    | ok lv => simp [markerTruthy]
  · have hp : get_pagination_params ⟨some "0", none⟩ = Except.ok (some 0, none) := by decide
    simp only [limited_by_marker, hp, markerTruthy]
    simp [pySlice]

/-! ### Status mapper -/

/-- Modelled from the spec: the power-state enumeration of
`nova.compute.power_state`, whose module is not part of this source tree.  The
spec describes it as an enumeration of distinct values (the absent/null case is
modelled separately as `Option.none`, matching the distinct `None` key of the
status map). -/
inductive PowerState where
  | NOSTATE
  | RUNNING
  | BLOCKED
  | SUSPENDED
  | PAUSED
  | SHUTDOWN
  | SHUTOFF
  | CRASHED
  | FAILED
  | BUILDING
  deriving DecidableEq, Repr

/-- Table `_STATUS_MAP`, in source order: keys are `None` plus each power state, values
the user-facing status strings. -/
def STATUS_MAP : List (Option PowerState × String) :=
  [(none, "BUILD"),
   (some PowerState.NOSTATE, "BUILD"),
   (some PowerState.RUNNING, "ACTIVE"),
   (some PowerState.BLOCKED, "ACTIVE"),
   (some PowerState.SUSPENDED, "SUSPENDED"),
   (some PowerState.PAUSED, "PAUSED"),
   (some PowerState.SHUTDOWN, "SHUTDOWN"),
   (some PowerState.SHUTOFF, "SHUTOFF"),
   (some PowerState.CRASHED, "ERROR"),
   (some PowerState.FAILED, "ERROR"),
   (some PowerState.BUILDING, "BUILD")]

/-- ASCII lower-casing of one character, as Python `str.lower` performs on the
ASCII status strings involved here. -/
def pyLowerChar (c : Char) : Char :=
  if 'A' ≤ c ∧ c ≤ 'Z' then Char.ofNat (c.toNat + 32) else c

/-- Python `s.lower()` on the ASCII strings involved here. -/
def pyLower (s : String) : String := String.mk (s.data.map pyLowerChar)

/-- Function `status_from_power_state`: dictionary lookup in `_STATUS_MAP` (total over
the keys of the map, which our key type enumerates exactly). -/
def status_from_power_state (ps : Option PowerState) : String :=
  ((STATUS_MAP.find? (fun kv => kv.1 == ps)).map Prod.snd).getD ""

/-- Function `power_states_from_status`: iterate over `_STATUS_MAP`, skip the `None`
key, and collect every key whose status string matches case-insensitively. -/
def power_states_from_status (status : String) : List (Option PowerState) :=
  STATUS_MAP.foldl
    (fun acc kv =>
      match kv.1 with
      | none => acc
      | some _ => if pyLower status = pyLower kv.2 then acc ++ [kv.1] else acc)
    []

/-! ### C9: status round trip -/

/-- C9: for every status string in the closed set, every power state returned by
`power_states_from_status` maps back to that status under
`status_from_power_state`, and the null/absent power state is never a member of
the returned list. -/
theorem power_states_round_trip :
    ∀ s ∈ ["BUILD", "ACTIVE", "SUSPENDED", "PAUSED", "SHUTDOWN", "SHUTOFF", "ERROR"],
      ∀ k ∈ power_states_from_status s, status_from_power_state k = s ∧ k ≠ none := by
  decide

theorem power_states_round_trip_witness :
    status_from_power_state (some PowerState.RUNNING) = "ACTIVE" ∧
    some PowerState.RUNNING ≠ (none : Option PowerState) :=
  power_states_round_trip "ACTIVE" (by decide) (some PowerState.RUNNING) (by decide)

/-! ### URL model -/

/-- The components of a split URL, as `urlparse.urlsplit` produces them. -/
structure SplitUrl where
  scheme : List Char
  netloc : List Char
  path : List Char
  query : List Char
  fragment : List Char
  deriving DecidableEq, Repr

/-- Characters permitted in a URL scheme. -/
def isSchemeChar (c : Char) : Bool :=
  c.isAlpha || c.isDigit || c == '+' || c == '-' || c == '.'

/-- Everything before the first occurrence of `c`, and everything after it
(the whole input and `[]` when `c` does not occur) — Python
`s.split(c, 1)` with a default of `''` for the second part. -/
def splitFirst (c : Char) (l : List Char) : List Char × List Char :=
  (l.takeWhile (fun x => x != c), (l.dropWhile (fun x => x != c)).drop 1)

/-- Modelled from the spec: `urlparse.urlsplit`, an external library the module
calls to parse an href into scheme, network location, path, query and
fragment.  A leading `<scheme>:` is recognized when the prefix before the first
colon is a nonempty run of scheme characters; a following `//` introduces the
network location, which extends to the next `/`, `?` or `#`; the fragment
starts at the first `#` and the query at the first `?` before it. -/
def urlsplit (href : String) : SplitUrl :=
  let l := href.data
  let pre := l.takeWhile (fun c => c != ':')
  let hasScheme := pre.length < l.length ∧ pre ≠ [] ∧ pre.all isSchemeChar
  let scheme := if hasScheme then pre.map pyLowerChar else []
  let rest := if hasScheme then l.drop (pre.length + 1) else l
  let netlocRest :=
    match rest with
    | '/' :: '/' :: t =>
      (t.takeWhile (fun c => c != '/' && c != '?' && c != '#'),
       t.dropWhile (fun c => c != '/' && c != '?' && c != '#'))
    | _ => (([] : List Char), rest)
  let fragSplit := splitFirst '#' netlocRest.2
  let querySplit := splitFirst '?' fragSplit.1
  ⟨scheme, netlocRest.1, querySplit.1, querySplit.2, fragSplit.2⟩

/-- Modelled from the spec: `urlparse.urlunsplit`, reassembling the components:
`//` plus the network location when present, the path (given a leading `/` when
a network location precedes it and it does not start with one), `<scheme>:` in
front, then `?<query>` and `#<fragment>` when nonempty. -/
def urlunsplit (u : SplitUrl) : String :=
  let url := u.path
  let url :=
    if u.netloc ≠ [] ∨ url.take 2 = ['/', '/'] then
      '/' :: '/' :: (u.netloc ++ (if url ≠ [] ∧ url.take 1 ≠ ['/'] then '/' :: url else url))
    else url
  let url := if u.scheme ≠ [] then u.scheme ++ ':' :: url else url
  let url := if u.query ≠ [] then url ++ '?' :: u.query else url
  let url := if u.fragment ≠ [] then url ++ '#' :: u.fragment else url
  String.mk url

/-! ### `get_id_from_href` -/

/-- Function `get_id_from_href`: try `int(href)` first; otherwise split the URL path on
`/`, take the last piece — `path.split('/')[-1]`, which may be empty — and try
`int` again, propagating the `ValueError` when that also fails. -/
def get_id_from_href (href : String) : Except String Int :=
  match pyInt href with
  | some n => Except.ok n
  | none =>
    let seg := (pySplit '/' (urlsplit href).path).getLastD []
    match pyIntChars seg with
    | some n => Except.ok n
    | none => Except.error ("invalid literal for int() with base 10: " ++ String.mk seg)

/-! ### `remove_version_from_href` -/

/-- The substitution `re.sub(r'^/v[0-9]+\.[0-9]+(/|$)', r'\1', path, count=1)`:
`some newPath` when the pattern matches a leading `/v<digits>.<digits>` segment
followed by `/` or the end of the path (the replacement keeps the trailing `/`),
`none` when the pattern does not match (in which case `re.sub` returns the path
unchanged and the code raises). -/
def subVersionPath : List Char → Option (List Char)
  | '/' :: 'v' :: rest =>
    if (rest.takeWhile Char.isDigit).isEmpty then none
    else
      match rest.dropWhile Char.isDigit with
      | '.' :: r2 =>
        if (r2.takeWhile Char.isDigit).isEmpty then none
        else
          match r2.dropWhile Char.isDigit with
          | [] => some []
          | '/' :: tail => some ('/' :: tail)
          | _ => none
      | _ => none
  | _ => none

/-- Function `remove_version_from_href`: split the href, substitute away the leading
version segment of the path, raise `ValueError` when the path is unchanged,
and reassemble the URL with the new path and all other components intact. -/
def remove_version_from_href (href : String) : Except String String :=
  let u := urlsplit href
  match subVersionPath u.path with
  | none => Except.error ("href " ++ href ++ " does not contain version")
  | some p => Except.ok (urlunsplit { u with path := p })

/-! ### `get_version_from_href` -/

/-- Match of `[/][v][0-9]+\.[0-9]+[/]` at the head of the list: the matched
characters, or `none`. -/
def matchVerSlash : List Char → Option (List Char)
  | '/' :: 'v' :: rest =>
    if (rest.takeWhile Char.isDigit).isEmpty then none
    else
      match rest.dropWhile Char.isDigit with
      | '.' :: r2 =>
        if (r2.takeWhile Char.isDigit).isEmpty then none
        else
          match r2.dropWhile Char.isDigit with
          | '/' :: _ =>
            some ('/' :: 'v' :: rest.takeWhile Char.isDigit
              ++ '.' :: r2.takeWhile Char.isDigit ++ ['/'])
          | _ => none
      | _ => none
  | _ => none

/-- Leftmost match of `[/][v][0-9]+\.[0-9]+[/]` anywhere in the list — the
first element of `re.findall` on that pattern. -/
def findVerSlash : List Char → Option (List Char)
  | [] => none
  | x :: rest =>
    match matchVerSlash (x :: rest) with
    | some m => some m
    | none => findVerSlash rest

/-- Whether the whole list matches `[/][v][0-9]+\.[0-9]+$`. -/
def matchVerEnd (l : List Char) : Bool :=
  match l with
  | '/' :: 'v' :: rest =>
    if (rest.takeWhile Char.isDigit).isEmpty then false
    else
      match rest.dropWhile Char.isDigit with
      | '.' :: r2 =>
        !(r2.takeWhile Char.isDigit).isEmpty && (r2.dropWhile Char.isDigit).isEmpty
      | _ => false
  | _ => false

/-- Leftmost match of `[/][v][0-9]+\.[0-9]+$` — the first suffix matching the
end-anchored pattern. -/
def findVerEnd : List Char → Option (List Char)
  | [] => none
  | x :: rest => if matchVerEnd (x :: rest) then some (x :: rest) else findVerEnd rest

/-- Match of `[0-9]+\.[0-9]` at the head of the list: a nonempty digit run, a
dot, and a single further digit. -/
def matchDigitsDotDigit (l : List Char) : Option (List Char) :=
  if (l.takeWhile Char.isDigit).isEmpty then none
  else
    match l.dropWhile Char.isDigit with
    | '.' :: c :: _ =>
      if c.isDigit then some (l.takeWhile Char.isDigit ++ ['.', c]) else none
    | _ => none

/-- Leftmost match of `[0-9]+\.[0-9]` anywhere in the list. -/
def findDigitsDotDigit : List Char → Option (List Char)
  | [] => none
  | x :: rest =>
    match matchDigitsDotDigit (x :: rest) with
    | some m => some m
    | none => findDigitsDotDigit rest

/-- Function `get_version_from_href`: find the first `/v<digits>.<digits>/` occurrence
anywhere in the href, falling back to a `/v<digits>.<digits>` match at the end
of the string; extract `[0-9]+\.[0-9]` from the matched text; default to
`"1.0"` when nothing matches (the caught `IndexError`). -/
def get_version_from_href (href : String) : String :=
  let found :=
    match findVerSlash href.data with
    | some seg => some seg
    | none => findVerEnd href.data
  match found with
  | none => "1.0"
  | some seg =>
    match findDigitsDotDigit seg with
    | some d => String.mk d
    | none => "1.0"

/-! ### takeWhile and dropWhile span lemmas -/

theorem takeWhile_all {α : Type} (p : α → Bool) (a : List α) (h : ∀ x ∈ a, p x = true) :
    a.takeWhile p = a := by
  induction a with
  | nil => rfl
  | cons x xs ih =>
    have hx : p x = true := h x (List.mem_cons_self x xs)
    rw [List.takeWhile_cons, if_pos hx, ih (fun y hy => h y (List.mem_cons_of_mem x hy))]

theorem dropWhile_all {α : Type} (p : α → Bool) (a : List α) (h : ∀ x ∈ a, p x = true) :
    a.dropWhile p = [] := by
  induction a with
  | nil => rfl
  | cons x xs ih =>
    have hx : p x = true := h x (List.mem_cons_self x xs)
    rw [List.dropWhile_cons, if_pos hx, ih (fun y hy => h y (List.mem_cons_of_mem x hy))]

theorem takeWhile_append_stop {α : Type} (p : α → Bool) (a : List α) (c : α) (r : List α)
    (h : ∀ x ∈ a, p x = true) (hc : p c = false) :
    (a ++ c :: r).takeWhile p = a := by
  induction a with
  | nil => simp [List.takeWhile_cons, hc]
  | cons x xs ih =>
    have hx : p x = true := h x (List.mem_cons_self x xs)
    rw [List.cons_append, List.takeWhile_cons, if_pos hx,
      ih (fun y hy => h y (List.mem_cons_of_mem x hy))]

theorem dropWhile_append_stop {α : Type} (p : α → Bool) (a : List α) (c : α) (r : List α)
    (h : ∀ x ∈ a, p x = true) (hc : p c = false) :
    (a ++ c :: r).dropWhile p = c :: r := by
  induction a with
  | nil => simp [List.dropWhile_cons, hc]
  | cons x xs ih =>
    have hx : p x = true := h x (List.mem_cons_self x xs)
    rw [List.cons_append, List.dropWhile_cons, if_pos hx,
      ih (fun y hy => h y (List.mem_cons_of_mem x hy))]

/-! ### The declarative version-removal relation -/

/-- The version-removal relation as the spec states it: `path` decomposes as a
leading `/v<digits>.<digits>` segment followed by the end of the path (removed
outright) or by `/rest` (replaced by `/rest`). -/
def versionRemovalSpec (path newPath : List Char) : Prop :=
  ∃ a b rest : List Char, a ≠ [] ∧ b ≠ [] ∧
    (∀ c ∈ a, c.isDigit = true) ∧ (∀ c ∈ b, c.isDigit = true) ∧
    ((path = '/' :: 'v' :: (a ++ '.' :: b) ∧ newPath = [] ∧ rest = []) ∨
     (path = '/' :: 'v' :: (a ++ '.' :: b ++ '/' :: rest) ∧ newPath = '/' :: rest))

theorem subVersionPath_eq_some_iff (path newPath : List Char) :
    subVersionPath path = some newPath ↔ versionRemovalSpec path newPath := by
  constructor
  · intro h
    unfold subVersionPath at h
    split at h
    · rename_i rest
      split at h
      · simp at h
      · rename_i ha
        split at h
        · rename_i r2 heq
          split at h
          · simp at h
          · rename_i hb
            have h1 : rest.takeWhile Char.isDigit ++ rest.dropWhile Char.isDigit = rest :=
              List.takeWhile_append_dropWhile _ _
            have h2 : r2.takeWhile Char.isDigit ++ r2.dropWhile Char.isDigit = r2 :=
              List.takeWhile_append_dropWhile _ _
            rw [heq] at h1
            split at h
            · rename_i h3
              obtain rfl : ([] : List Char) = newPath := by simpa using h
              rw [h3, List.append_nil] at h2
              refine ⟨rest.takeWhile Char.isDigit, r2.takeWhile Char.isDigit, [],
                ?_, ?_, ?_, ?_, Or.inl ⟨?_, rfl, rfl⟩⟩
              · simpa using ha
              · simpa using hb
              · exact fun c hc => List.mem_takeWhile_imp hc
              · exact fun c hc => List.mem_takeWhile_imp hc
              · rw [h2, h1]
            · rename_i tail h3
              obtain rfl : '/' :: tail = newPath := by simpa using h
              rw [h3] at h2
              refine ⟨rest.takeWhile Char.isDigit, r2.takeWhile Char.isDigit, tail,
                ?_, ?_, ?_, ?_, Or.inr ⟨?_, rfl⟩⟩
              · simpa using ha
              · simpa using hb
              · exact fun c hc => List.mem_takeWhile_imp hc
              · exact fun c hc => List.mem_takeWhile_imp hc
              · simp only [List.append_assoc, List.cons_append]
                rw [h2, h1]
            · simp at h
        · simp at h
    · simp at h
  · intro hs
    obtain ⟨a, b, rest, ha, hb, hadig, hbdig, hcase⟩ := hs
    have hdot : Char.isDigit '.' = false := by decide
    have hslash : Char.isDigit '/' = false := by decide
    rcases hcase with ⟨hpath, hnp, -⟩ | ⟨hpath, hnp⟩
    · subst hpath
      subst hnp
      have h1 := takeWhile_append_stop Char.isDigit a '.' b hadig hdot
      have h2 := dropWhile_append_stop Char.isDigit a '.' b hadig hdot
      have h3 := takeWhile_all Char.isDigit b hbdig
      have h4 := dropWhile_all Char.isDigit b hbdig
      simp [subVersionPath, h1, h2, h3, h4, ha, hb]
    · subst hpath
      subst hnp
      have h1 := takeWhile_append_stop Char.isDigit a '.' (b ++ '/' :: rest) hadig hdot
      have h2 := dropWhile_append_stop Char.isDigit a '.' (b ++ '/' :: rest) hadig hdot
      have h3 := takeWhile_append_stop Char.isDigit b '/' rest hbdig hslash
      have h4 := dropWhile_append_stop Char.isDigit b '/' rest hbdig hslash
      simp only [List.append_assoc, List.cons_append]
      simp [subVersionPath, h1, h2, h3, h4, ha, hb]

/-! ### C6: `get_id_from_href` -/

theorem get_id_from_href_trailing_slash_cex :
    get_id_from_href "http://host/123/" ≠ Except.ok 123 ∧
    (get_id_from_href "http://host/123/").isOk = false := by decide

theorem get_id_from_href_spec (href : String) :
    (∀ n, pyInt href = some n → get_id_from_href href = Except.ok n) ∧
    (pyInt href = none → ∀ n,
        pyIntChars ((pySplit '/' (urlsplit href).path).getLastD []) = some n →
        get_id_from_href href = Except.ok n) ∧
    (pyInt href = none →
        pyIntChars ((pySplit '/' (urlsplit href).path).getLastD []) = none →
        (get_id_from_href href).isOk = false) ∧
    get_id_from_href "123" = Except.ok 123 ∧
    get_id_from_href "http://host/bar/123?q=4" = Except.ok 123 ∧
    (get_id_from_href "abc").isOk = false := by
  refine ⟨?_, ?_, ?_, by decide, by decide, by decide⟩
  · intro n hn
    simp only [get_id_from_href, hn]
  · intro hn n hseg
    simp only [get_id_from_href, hn, hseg]
  · intro hn hseg
    simp only [get_id_from_href, hn, hseg]
    rfl

theorem get_id_from_href_spec_witness :
    get_id_from_href "http://host/bar/99" = Except.ok 99 :=
  (get_id_from_href_spec "http://host/bar/99").2.1 (by decide) 99 (by decide)

/-! ### C7: `remove_version_from_href` -/

theorem remove_version_from_href_spec (href : String) :
    remove_version_from_href "http://host/v1.1/123" = Except.ok "http://host/123" ∧
    remove_version_from_href "http://host/v1.1" = Except.ok "http://host" ∧
    (remove_version_from_href "http://host/123").isOk = false ∧
    ((∃ s, remove_version_from_href href = Except.ok s) ↔
      ∃ p, versionRemovalSpec (urlsplit href).path p) ∧
    (∀ p, versionRemovalSpec (urlsplit href).path p →
      remove_version_from_href href
        = Except.ok (urlunsplit { urlsplit href with path := p })) := by
  refine ⟨by decide, by decide, by decide, ?_, ?_⟩
  · constructor
    · rintro ⟨s, hs⟩
      simp only [remove_version_from_href] at hs
      cases hsub : subVersionPath (urlsplit href).path with
      | none => rw [hsub] at hs; simp at hs
      | some p => exact ⟨p, (subVersionPath_eq_some_iff _ _).mp hsub⟩
    · rintro ⟨p, hp⟩
      have hsub := (subVersionPath_eq_some_iff _ _).mpr hp
      exact ⟨urlunsplit { urlsplit href with path := p },
        by simp only [remove_version_from_href, hsub]⟩
  · intro p hp
    have hsub := (subVersionPath_eq_some_iff _ _).mpr hp
    simp only [remove_version_from_href, hsub]

theorem remove_version_from_href_spec_witness :
    remove_version_from_href "http://host/v1.1/123"
      = Except.ok
          (urlunsplit { urlsplit "http://host/v1.1/123" with path := ['/', '1', '2', '3'] }) :=
  (remove_version_from_href_spec "http://host/v1.1/123").2.2.2.2 ['/', '1', '2', '3']
    ⟨['1'], ['1'], ['1', '2', '3'], by decide, by decide, by decide, by decide,
      Or.inr ⟨by decide, by decide⟩⟩

/-! ### C8: `get_version_from_href` -/

theorem get_version_from_href_truncation_cex :
    get_version_from_href "http://host/v1.15/123" = "1.1" ∧
    get_version_from_href "http://host/v1.15/123" ≠ "1.15" := by decide

theorem get_version_from_href_spec :
    get_version_from_href "http://host/v1.1/123" = "1.1" ∧
    get_version_from_href "http://host/123" = "1.0" ∧
    (∀ href : String, findVerSlash href.data = none → findVerEnd href.data = none →
        get_version_from_href href = "1.0") ∧
    (∀ a b tail : List Char, a ≠ [] → b ≠ [] →
        (∀ c ∈ a, c.isDigit = true) → (∀ c ∈ b, c.isDigit = true) →
        get_version_from_href (String.mk ('/' :: 'v' :: (a ++ '.' :: (b ++ '/' :: tail))))
          = String.mk (a ++ '.' :: b.take 1)) := by
  refine ⟨by decide, by decide, ?_, ?_⟩
  · intro href h1 h2
    simp only [get_version_from_href, h1, h2]
  · intro a b tail ha hb hadig hbdig
    have hdv : Char.isDigit '/' = false := by decide
    have hvv : Char.isDigit 'v' = false := by decide
    have hdot : Char.isDigit '.' = false := by decide
    obtain ⟨c, bt, rfl⟩ : ∃ c bt, b = c :: bt := by
      cases b with
      | nil => exact absurd rfl hb
      | cons c bt => exact ⟨c, bt, rfl⟩
    obtain ⟨ah, at2, rfl⟩ : ∃ ah at2, a = ah :: at2 := by
      cases a with
      | nil => exact absurd rfl ha
      | cons ah at2 => exact ⟨ah, at2, rfl⟩
    have hc : Char.isDigit c = true := hbdig c (List.mem_cons_self c bt)
    have h1 := takeWhile_append_stop Char.isDigit (ah :: at2) '.' ((c :: bt) ++ '/' :: tail)
      hadig hdot
    have h2 := dropWhile_append_stop Char.isDigit (ah :: at2) '.' ((c :: bt) ++ '/' :: tail)
      hadig hdot
    have h3 := takeWhile_append_stop Char.isDigit (c :: bt) '/' tail hbdig hdv
    have h4 := dropWhile_append_stop Char.isDigit (c :: bt) '/' tail hbdig hdv
    have h5 := takeWhile_append_stop Char.isDigit (ah :: at2) '.' ((c :: bt) ++ ['/'])
      hadig hdot
    have h6 := dropWhile_append_stop Char.isDigit (ah :: at2) '.' ((c :: bt) ++ ['/'])
      hadig hdot
    simp only [List.cons_append, List.append_assoc] at h1 h2 h3 h4 h5 h6 ⊢
    simp [get_version_from_href, findVerSlash, matchVerSlash, findDigitsDotDigit,
      matchDigitsDotDigit, h1, h2, h3, h4, h5, h6, hdv, hvv, hdot, hc]

theorem get_version_from_href_spec_witness :
    get_version_from_href (String.mk ('/' :: 'v' :: (['1'] ++ '.' :: (['1', '5'] ++ '/' :: []))))
      = String.mk (['1'] ++ '.' :: ['1', '5'].take 1) :=
  get_version_from_href_spec.2.2.2 ['1'] ['1', '5'] [] (by decide) (by decide) (by decide)
    (by decide)

/-! ### Metadata codec: DOM model -/

/-- Modelled from the spec: the DOM tree shape the codec operates on — element
nodes with a tag name, attributes and children, and text nodes.  `minidom` is an
external library; the codec only reads node names, one attribute, children and
text content. -/
inductive XmlNode where
  | element (name : String) (attrs : List (String × String)) (children : List XmlNode)
  | text (value : String)

/-- DOM `nodeName`: the tag name of an element, `#text` for a text node. -/
def XmlNode.nodeName : XmlNode → String
  | element n _ _ => n
  | text _ => "#text"

/-- DOM `childNodes`. -/
def XmlNode.childNodes : XmlNode → List XmlNode
  | element _ _ c => c
  | text _ => []

/-- DOM `getAttribute`: the value of the named attribute, `""` when absent. -/
def XmlNode.getAttribute : XmlNode → String → String
  | element _ attrs _, attrName =>
    ((attrs.find? (fun kv => kv.1 == attrName)).map Prod.snd).getD ""
  | text _, _ => ""

/-- Modelled from the spec: `find_first_child_named` of the deserializer base
class (declared in `wsgi.py`, outside this source tree) — the first immediate
child with the given node name, if any. -/
def find_first_child_named (parent : XmlNode) (name : String) : Option XmlNode :=
  parent.childNodes.find? (fun n => n.nodeName == name)

/-- Modelled from the spec: `find_children_named` — every immediate child with
the given node name, in document order. -/
def find_children_named (parent : XmlNode) (name : String) : List XmlNode :=
  parent.childNodes.filter (fun n => n.nodeName == name)

/-- Modelled from the spec: `extract_text` — the text content of a node: the
value of its single text child, `""` otherwise. -/
def extract_text (node : XmlNode) : String :=
  match node.childNodes with
  | [XmlNode.text v] => v
  | _ => ""

/-- Python dict assignment `m[key] = value` on an association list: overwrite
the value in place when the key is present, append otherwise. -/
def dictInsert (m : List (String × String)) (k v : String) : List (String × String) :=
  if m.any (fun kv => kv.1 == k) then m.map (fun kv => if kv.1 == k then (k, v) else kv)
  else m ++ [(k, v)]

/-- Python dict lookup `m.get(key)` on an association list. -/
def dictLookup (m : List (String × String)) (k : String) : Option String :=
  (m.find? (fun kv => kv.1 == k)).map Prod.snd

/-- Function `extract_metadata`: the empty mapping for an absent node, otherwise one dict insert per
immediate `meta` child, keyed by its `key` attribute with its text content as
the value. -/
def extract_metadata (node : Option XmlNode) : List (String × String) :=
  match node with
  | none => []
  | some n =>
    (find_children_named n "meta").foldl
      (fun m mn => dictInsert m (mn.getAttribute "key") (extract_text mn)) []

/-- Function `_extract_metadata_container` applied to the parsed document: locate the
top-level `metadata` element and extract the mapping (the code packs the result
into a request-body dictionary under fixed keys, a wrapper that is immaterial
and omitted here).  Parsing the
wire string with `minidom.parseString` is external; the document tree is taken
as input. -/
def extract_metadata_container (doc : XmlNode) : List (String × String) :=
  extract_metadata (find_first_child_named doc "metadata")

/-- Constant `XML_NS_V11` of `nova.api.openstack.wsgi`. -/
def XML_NS_V11 : String := "http://docs.openstack.org/compute/api/v1.1"

/-- Function `_meta_item_to_xml`: a `meta` element with the key as attribute and the
value as its text child. -/
def meta_item_to_xml (k v : String) : XmlNode :=
  XmlNode.element "meta" [("key", k)] [XmlNode.text v]

/-- Function `meta_list_to_xml`: the `metadata` container element with one `meta` child
per entry, in iteration order. -/
def meta_list_to_xml (items : List (String × String)) : XmlNode :=
  XmlNode.element "metadata" [] (items.map fun kv => meta_item_to_xml kv.1 kv.2)

/-- Function `_add_xmlns` of the serializer base class: set the `xmlns` attribute on the
root element. -/
def add_xmlns : XmlNode → XmlNode
  | XmlNode.element n attrs c => XmlNode.element n (attrs ++ [("xmlns", XML_NS_V11)]) c
  | n => n

/-- Function `_meta_list_to_xml_string` at the document level: the container element,
with the namespace declaration, as only child of the document.  Serializing
with `toxml('UTF-8')` is external; for keys and values free of XML-reserved
characters serialize-then-parse is the identity on this tree, so the document
tree itself is the encoding. -/
def meta_list_to_xml_string (m : List (String × String)) : XmlNode :=
  XmlNode.element "#document" [] [add_xmlns (meta_list_to_xml m)]

/-- The XML characters whose occurrence in a key or value would require
escaping in the wire form. -/
def xmlReserved : List Char := ['&', '<', '>', '"', Char.ofNat 39]

/-- A string free of XML-reserved characters. -/
def xmlSafe (s : String) : Prop := ∀ c ∈ s.data, c ∉ xmlReserved

instance xmlSafe_decidable (s : String) : Decidable (xmlSafe s) :=
  inferInstanceAs (Decidable (∀ c ∈ s.data, c ∉ xmlReserved))

/-! ### Dictionary lemmas -/

theorem dictInsert_append_of_not_mem (m : List (String × String)) (k v : String)
    (h : ∀ kv ∈ m, kv.1 ≠ k) : dictInsert m k v = m ++ [(k, v)] := by
  have hfalse : m.any (fun kv => kv.1 == k) = false := by
    rw [List.any_eq_false]
    intro kv hkv
    simpa using h kv hkv
  simp [dictInsert, hfalse]

theorem foldl_dictInsert_of_nodup :
    ∀ (M acc : List (String × String)), ((acc ++ M).map Prod.fst).Nodup →
      List.foldl (fun m kv => dictInsert m kv.1 kv.2) acc M = acc ++ M := by
  intro M
  induction M with
  | nil => intro acc h; simp
  | cons kv rest ih =>
    intro acc h
    have hk : ∀ kv2 ∈ acc, kv2.1 ≠ kv.1 := by
      intro kv2 hkv2 heq
      rw [List.map_append, List.nodup_append] at h
      exact h.2.2 (List.mem_map_of_mem Prod.fst hkv2) (by simp [heq])
    rw [List.foldl_cons, dictInsert_append_of_not_mem acc kv.1 kv.2 hk]
    have hnext : (((acc ++ [kv]) ++ rest).map Prod.fst).Nodup := by
      simpa [List.append_assoc] using h
    have := ih (acc ++ [kv]) hnext
    simpa [List.append_assoc] using this

theorem find?_map_replace_ne (m : List (String × String)) (k v q : String) (hq : q ≠ k) :
    (m.map (fun kv => if kv.1 == k then (k, v) else kv)).find? (fun kv => kv.1 == q)
      = m.find? (fun kv => kv.1 == q) := by
  induction m with
  | nil => rfl
  | cons kv rest ih =>
    by_cases hkv : kv.1 = k
    · simp only [List.map_cons]
      rw [if_pos (by simp [hkv])]
      rw [List.find?_cons_of_neg _ (by simp [Ne.symm hq]),
        List.find?_cons_of_neg _ (by simp [hkv, Ne.symm hq])]
      exact ih
    · simp only [List.map_cons]
      rw [if_neg (by simp [hkv])]
      by_cases hq2 : kv.1 = q
      · rw [List.find?_cons_of_pos _ (by simp [hq2]), List.find?_cons_of_pos _ (by simp [hq2])]
      · rw [List.find?_cons_of_neg _ (by simp [hq2]), List.find?_cons_of_neg _ (by simp [hq2])]
        exact ih

theorem find?_map_replace_self (m : List (String × String)) (k v : String)
    (hany : m.any (fun kv => kv.1 == k) = true) :
    (m.map (fun kv => if kv.1 == k then (k, v) else kv)).find? (fun kv => kv.1 == k)
      = some (k, v) := by
  induction m with
  | nil => simp at hany
  | cons kv rest ih =>
    by_cases hkv : kv.1 = k
    · simp only [List.map_cons]
      rw [if_pos (by simp [hkv])]
      exact List.find?_cons_of_pos _ (by simp)
    · simp only [List.map_cons]
      rw [if_neg (by simp [hkv])]
      rw [List.find?_cons_of_neg _ (by simp [hkv])]
      apply ih
      simpa [hkv] using hany

theorem dictLookup_dictInsert (m : List (String × String)) (k v q : String) :
    dictLookup (dictInsert m k v) q = if q = k then some v else dictLookup m q := by
  by_cases hany : m.any (fun kv => kv.1 == k) = true
  · unfold dictInsert
    rw [if_pos hany]
    by_cases hq : q = k
    · subst hq
      unfold dictLookup
      rw [find?_map_replace_self m q v hany]
      simp
    · unfold dictLookup
      rw [find?_map_replace_ne m k v q hq, if_neg hq]
  · unfold dictInsert
    rw [if_neg hany]
    unfold dictLookup
    rw [List.find?_append]
    by_cases hq : q = k
    · subst hq
      have hnone : m.find? (fun kv => kv.1 == q) = none := by
        rw [List.find?_eq_none]
        intro x hx hbeq
        exact hany (List.any_eq_true.mpr ⟨x, hx, hbeq⟩)
      rw [hnone]
      simp [List.find?]
    · have hkq : (k == q) = false := by simpa using Ne.symm hq
      have hsingle : ([(k, v)] : List (String × String)).find? (fun kv => kv.1 == q)
          = none := by
        simp [List.find?, hkq]
      rw [hsingle, Option.or_none, if_neg hq]

/-- The value of the last pair with the given key, if any — the spec-side
statement of "last occurrence wins". -/
def lastValue (ps : List (String × String)) (k : String) : Option String :=
  (ps.reverse.find? (fun kv => kv.1 == k)).map Prod.snd

theorem dictLookup_foldl_insert_aux :
    ∀ (ps acc : List (String × String)) (q : String),
      dictLookup (List.foldl (fun m kv => dictInsert m kv.1 kv.2) acc ps) q
        = match lastValue ps q with
          | some x => some x
          | none => dictLookup acc q := by
  intro ps
  induction ps with
  | nil => intro acc q; simp [lastValue]
  | cons kv rest ih =>
    intro acc q
    rw [List.foldl_cons, ih (dictInsert acc kv.1 kv.2) q]
    have hlast : lastValue (kv :: rest) q
        = match lastValue rest q with
          | some x => some x
          | none => if kv.1 == q then some kv.2 else none := by
      unfold lastValue
      rw [List.reverse_cons, List.find?_append]
      cases hrest : rest.reverse.find? (fun p => p.1 == q) with
      | some x => simp [Option.or]
      | none =>
        by_cases hkv : kv.1 = q
        · simp [List.find?, hkv]
        · have hkvf : (kv.1 == q) = false := by simpa using hkv
          simp [List.find?, hkvf]
    rw [hlast]
    cases hrest : lastValue rest q with
    | some x => simp
    | none =>
      simp only []
      rw [dictLookup_dictInsert]
      by_cases hq : q = kv.1
      · simp [hq]
      · simp [hq, Ne.symm hq]

theorem dictLookup_foldl_insert (ps : List (String × String)) (q : String) :
    dictLookup (List.foldl (fun m kv => dictInsert m kv.1 kv.2) [] ps) q = lastValue ps q := by
  rw [dictLookup_foldl_insert_aux ps [] q]
  cases lastValue ps q <;> simp [dictLookup, List.find?]

/-! ### C1: metadata round trip -/

/-- C1: for every metadata mapping whose keys are unique and whose keys and
values are free of XML-reserved characters, decoding the container encoding
reconstructs exactly the mapping: the encoder builds a `metadata` root with one
`meta` child per entry (key attribute, value text), and the container decode of
that document yields the original mapping. -/
theorem metadata_round_trip (M : List (String × String))
    (hkeys : (M.map Prod.fst).Nodup)
    (hsafe : ∀ kv ∈ M, xmlSafe kv.1 ∧ xmlSafe kv.2) :
    extract_metadata_container (meta_list_to_xml_string M) = M := by
  have hfirst : find_first_child_named (meta_list_to_xml_string M) "metadata"
      = some (add_xmlns (meta_list_to_xml M)) := by
    simp [find_first_child_named, meta_list_to_xml_string, XmlNode.childNodes, add_xmlns,
      meta_list_to_xml, XmlNode.nodeName]
  have hchildren : find_children_named (add_xmlns (meta_list_to_xml M)) "meta"
      = M.map (fun kv => meta_item_to_xml kv.1 kv.2) := by
    simp only [add_xmlns, meta_list_to_xml, find_children_named, XmlNode.childNodes]
    rw [List.filter_eq_self]
    intro a ha
    obtain ⟨kv, hkv, rfl⟩ := List.mem_map.mp ha
    simp [meta_item_to_xml, XmlNode.nodeName]
  unfold extract_metadata_container
  rw [hfirst]
  simp only [extract_metadata]
  rw [hchildren, List.foldl_map]
  have hfn : (fun (m : List (String × String)) (kv : String × String) =>
      dictInsert m ((meta_item_to_xml kv.1 kv.2).getAttribute "key")
        (extract_text (meta_item_to_xml kv.1 kv.2)))
      = fun m kv => dictInsert m kv.1 kv.2 := by
    funext m kv
    simp [meta_item_to_xml, XmlNode.getAttribute, extract_text, XmlNode.childNodes, List.find?]
  rw [hfn]
  exact foldl_dictInsert_of_nodup M [] (by simpa using hkeys)

theorem metadata_round_trip_witness :
    extract_metadata_container (meta_list_to_xml_string [("k1", "v1"), ("k2", "v2")])
      = [("k1", "v1"), ("k2", "v2")] :=
  metadata_round_trip [("k1", "v1"), ("k2", "v2")] (by decide) (by decide)

/-! ### C5: container decode -/

/-- C5: for every document tree: when no top-level `metadata` element exists the
container decode returns the empty mapping rather than an error; otherwise the
mapping is built from the `key` attribute and text content of each immediate
`meta` child, and under duplicate keys the last occurrence wins — stated as a
lookup characterization, plus a concrete duplicate-key instance. -/
theorem extract_metadata_container_spec (doc : XmlNode) :
    ((∀ c ∈ doc.childNodes, c.nodeName ≠ "metadata") → extract_metadata_container doc = []) ∧
    (∀ node, find_first_child_named doc "metadata" = some node →
        ∀ k, dictLookup (extract_metadata_container doc) k
          = lastValue ((find_children_named node "meta").map
              (fun n => (n.getAttribute "key", extract_text n))) k) ∧
    extract_metadata_container
        (XmlNode.element "#document" []
          [XmlNode.element "metadata" [] [meta_item_to_xml "a" "1", meta_item_to_xml "a" "2"]])
      = [("a", "2")] := by
  refine ⟨?_, ?_, by rfl⟩
  · intro h
    have hnone : find_first_child_named doc "metadata" = none := by
      unfold find_first_child_named
      rw [List.find?_eq_none]
      intro x hx
      simpa using h x hx
    simp [extract_metadata_container, hnone, extract_metadata]
  · intro node hnode k
    unfold extract_metadata_container
    rw [hnode]
    simp only [extract_metadata]
    rw [← List.foldl_map (fun n => ((n : XmlNode).getAttribute "key", extract_text n))
      (fun m kv => dictInsert m kv.1 kv.2)]
    exact dictLookup_foldl_insert _ k

theorem extract_metadata_container_spec_witness :
    extract_metadata_container (XmlNode.element "#document" [] [XmlNode.text "x"]) = [] :=
  (extract_metadata_container_spec (XmlNode.element "#document" [] [XmlNode.text "x"])).1
    (by
      intro c hc
      simp only [XmlNode.childNodes] at hc
      rw [List.mem_singleton] at hc
      subst hc
      decide)

end Nova
